import Mathlib

/-!
Verification of the student–mentor matching engine (`src/match.py`).

The engine consumes two prepared record sequences (students, mentors) and a
uniform per-mentor capacity.  It sorts both sequences by age descending
(unknown ages last), then greedily assigns each student the first eligible
mentor achieving the maximal campus tie-break score, tracking per-mentor
assignment counts in a ledger.

Embedding conventions:
* A pandas `NaN` age is `none`; a parsed age is `some n` (ages are the
  non-negative integers extracted from the raw text by `preprocess_data`).
* `DataFrame.sort_values(by='age', ascending=False)` sorts by age
  descending with `NaN` last (`na_position='last'`), but its default
  `kind='quicksort'` leaves the relative order of equal-age rows
  unspecified.  The embedding must pick a concrete sort and uses insertion
  sort; every theorem below depends on the processing order only through
  membership and permutation, so none relies on the model's tie order.
* A possibly-missing string field (`Series.get` returning `NaN`/`None`) is
  an `Option String`.
* The `defaultdict(int)` capacity ledger is a total function `Nat → Nat`
  that is `0` everywhere initially.
-/

/-- A prepared student record: the fields of a row of `students_df` that
`match_by_age_and_rules` reads.  `idx` is the pandas row index label. -/
structure Student where
  idx : Nat
  age : Option Nat
  genderPref : Option String
  campus : String
  phone : String
  email : String
  personalEmail : String
  disability : String
  activity1 : String
deriving DecidableEq

/-- A prepared mentor record: the fields of a row of `mentors_df` that
`match_by_age_and_rules` reads. -/
structure Mentor where
  idx : Nat
  name : String
  age : Option Nat
  gender : String
  campus : String
  title : String
deriving DecidableEq

/-- One output row of the `matches` DataFrame (source lines 131–147). -/
structure MatchRec where
  mentorName : String
  studentIndex : Nat
  studentAge : Option Nat
  studentGenderPref : Option String
  mentorIndex : Nat
  mentorAge : Option Nat
  mentorTitle : String
  matchReason : String
  sameCampusMatch : String
  assignedCampus : String
  studentPhone : String
  studentEmail : String
  studentPersonalEmail : String
  disability : String
  activityPref : String
deriving DecidableEq

/-- The priority comparator used by the age sort: `ageLEb a b` means record
with age `a` may appear no later than a record with age `b` when sorting by
age descending with unknown (`none`) ages last. -/
def ageLEb : Option Nat → Option Nat → Bool
  | _, none => true
  | none, some _ => false
  | some x, some y => decide (y ≤ x)

/-- The sort relation on records with an `age` projection. -/
def ageRel {α : Type} (age : α → Option Nat) (a b : α) : Prop :=
  ageLEb (age a) (age b) = true

instance {α : Type} (age : α → Option Nat) : DecidableRel (ageRel age) :=
  fun a b => instDecidableEqBool (ageLEb (age a) (age b)) true

instance {α : Type} (age : α → Option Nat) : IsTotal α (ageRel age) :=
  ⟨fun a b => by
    show ageLEb (age a) (age b) = true ∨ ageLEb (age b) (age a) = true
    cases age a <;> cases age b <;> simp [ageLEb] <;> omega⟩

instance {α : Type} (age : α → Option Nat) : IsTrans α (ageRel age) :=
  ⟨fun a b c h1 h2 => by
    have g1 : ageLEb (age a) (age b) = true := h1
    have g2 : ageLEb (age b) (age c) = true := h2
    show ageLEb (age a) (age c) = true
    generalize age a = x at g1 ⊢
    generalize age b = y at g1 g2
    generalize age c = z at g2 ⊢
    cases x <;> cases y <;> cases z <;> simp_all [ageLEb] <;> omega⟩

/-- Model of `df.sort_values(by='age', ascending=False)` (source lines 95–96):
sort by age descending, unknown ages last.  The source's default
`kind='quicksort'` gives no guarantee on the relative order of equal-age
rows, so the insertion sort used here fixes one concrete tie order; the
theorems below use this definition only up to membership and permutation. -/
def sortByAgeDesc {α : Type} (age : α → Option Nat) (l : List α) : List α :=
  List.insertionSort (ageRel age) l

/-- `is_male_preference_miss` (source line 111). -/
def isMalePreferenceMiss (s : Student) (m : Mentor) : Bool :=
  s.genderPref == some "Male" && !(m.gender == "Male")

/-- `is_female_preference_miss` (source line 112). -/
def isFemalePreferenceMiss (s : Student) (m : Mentor) : Bool :=
  s.genderPref == some "Female" && !(m.gender == "Female")

/-- The gender hard filter rejects mentor `m` for student `s`
(source line 114). -/
def genderMiss (s : Student) (m : Mentor) : Bool :=
  isMalePreferenceMiss s m || isFemalePreferenceMiss s m

/-- The campus tie-break score of an eligible mentor (source lines 122–124). -/
def campusScore (s : Student) (m : Mentor) : Int :=
  if s.campus == m.campus && !(s.campus == "Unknown") then 1 else 0

/-- A mentor passes both hard filters for a student at ledger state `cnt`. -/
def eligible (cnt : Nat → Nat) (cap : Nat) (s : Student) (m : Mentor) : Bool :=
  !genderMiss s m && decide (cnt m.idx < cap)

/-- Running state of the inner mentor scan (source lines 102–103). -/
structure ScanState where
  bestMentor : Option Mentor
  highestScore : Int
deriving DecidableEq

/-- One iteration of the inner mentor loop (source lines 105–128): skip on a
gender-preference miss, skip when the mentor is at capacity, otherwise score
and replace the running best on a strictly greater score. -/
def scanStep (cnt : Nat → Nat) (cap : Nat) (s : Student) (st : ScanState)
    (m : Mentor) : ScanState :=
  if genderMiss s m then st
  else if cap ≤ cnt m.idx then st
  else if st.highestScore < campusScore s m then ⟨some m, campusScore s m⟩ else st

/-- The full inner scan over the mentor priority list, starting from
`best_mentor = None`, `highest_score = -1`. -/
def scanMentors (cnt : Nat → Nat) (cap : Nat) (s : Student)
    (mentors : List Mentor) : ScanState :=
  mentors.foldl (scanStep cnt cap s) ⟨none, -1⟩

/-- The output row appended for a successful assignment
(source lines 131–147). -/
def mkMatch (s : Student) (m : Mentor) (highestScore : Int) : MatchRec :=
  { mentorName := m.name
    studentIndex := s.idx
    studentAge := s.age
    studentGenderPref := s.genderPref
    mentorIndex := m.idx
    mentorAge := m.age
    mentorTitle := m.title
    matchReason := "Age Priority + Gender Rule + Campus Preference"
    sameCampusMatch := if 0 < highestScore then "Yes" else "No"
    assignedCampus := s.campus
    studentPhone := s.phone
    studentEmail := s.email
    studentPersonalEmail := s.personalEmail
    disability := s.disability
    activityPref := s.activity1 }

/-- Engine state carried across students: the capacity ledger
`mentor_mentee_count` and the accumulated `matches` list. -/
structure EngineState where
  menteeCount : Nat → Nat
  matchRows : List MatchRec

/-- Processing of one student (source lines 101–148): scan all mentors; on a
found best mentor append a match row and increment that mentor's ledger
entry, otherwise leave the state unchanged. -/
def studentStep (mentorsSorted : List Mentor) (cap : Nat) (st : EngineState)
    (s : Student) : EngineState :=
  match (scanMentors st.menteeCount cap s mentorsSorted).bestMentor with
  | none => st
  | some m =>
    { menteeCount := fun i => if i = m.idx then st.menteeCount i + 1 else st.menteeCount i
      matchRows := st.matchRows ++
        [mkMatch s m (scanMentors st.menteeCount cap s mentorsSorted).highestScore] }

/-- The initial engine state (source lines 98–99). -/
def initState : EngineState :=
  { menteeCount := fun _ => 0, matchRows := [] }

/-- The whole engine run, returning the final state. -/
def runEngine (students : List Student) (mentors : List Mentor) (cap : Nat) :
    EngineState :=
  (sortByAgeDesc Student.age students).foldl
    (studentStep (sortByAgeDesc Mentor.age mentors) cap) initState

/-- `match_by_age_and_rules` (source lines 90–150): the list of match rows. -/
def match_by_age_and_rules (students : List Student) (mentors : List Mentor)
    (cap : Nat) : List MatchRec :=
  (runEngine students mentors cap).matchRows

/-- The unmatched remainder computed by the main script (source lines
181–186): the original prepared student sequence filtered to indices that
appear in no match row.  The `matches_df.empty` special case coincides with
filtering against the empty index list. -/
def unmatched_students (students : List Student) (matchesOut : List MatchRec) :
    List Student :=
  students.filter (fun s => !((matchesOut.map (fun r => r.studentIndex)).contains s.idx))

/-- The scan step restricted to mentors that already passed both hard
filters: replace the running best exactly on a strictly greater score. -/
def pureStep (s : Student) (st : ScanState) (m : Mentor) : ScanState :=
  if st.highestScore < campusScore s m then ⟨some m, campusScore s m⟩ else st

/-- The maximal campus score over a mentor list, folded from the sentinel
`-1` exactly as the scan's running best starts. -/
def maxEligScore (s : Student) (elig : List Mentor) : Int :=
  elig.foldl (fun acc m => max acc (campusScore s m)) (-1)

/-- Python `str.lower` over the character sequence. -/
def lowerChars (l : List Char) : List Char := l.map Char.toLower

/-- Python `str.strip`: drop leading and trailing whitespace. -/
def stripChars (l : List Char) : List Char :=
  ((l.dropWhile Char.isWhitespace).reverse.dropWhile Char.isWhitespace).reverse

/-- Python's substring test `pat in s`. -/
def containsSub (pat : List Char) : List Char → Bool
  | [] => pat.isPrefixOf []
  | c :: rest => pat.isPrefixOf (c :: rest) || containsSub pat rest

/-- `map_title_to_gender` (source lines 19–25).  `none` models a non-string
(`NaN`) cell.  The duplicated no-op disjunct of source line 24 is kept. -/
def map_title_to_gender : Option String → String
  | none => "Unknown"
  | some title =>
    let titleClean := stripChars (lowerChars title.data)
    if containsSub ['m', 'r'] titleClean then "Male"
    else if containsSub ['m', 's'] titleClean
        || containsSub ['m', 's'] titleClean then "Female"
    else "Unknown"

/-- The literal rule stated by the spec for the title mapping: a title whose
lowercased, trimmed form contains "mr" maps to Male, else one containing
"ms" maps to Female, else Unknown; a non-string title maps to Unknown. -/
def literalGenderRule : Option String → String
  | none => "Unknown"
  | some title =>
    let titleClean := stripChars (lowerChars title.data)
    if containsSub ['m', 'r'] titleClean then "Male"
    else if containsSub ['m', 's'] titleClean then "Female"
    else "Unknown"

/-- Numeric value of a decimal digit character. -/
def digitVal (c : Char) : Nat := c.toNat - '0'.toNat

/-- Decimal value of a digit run, most significant digit first. -/
def digitsToNat (l : List Char) : Nat :=
  l.foldl (fun n c => n * 10 + digitVal c) 0

/-- Model of the age cleaning of `preprocess_data` (source lines 76–77):
`.astype(str).str.extract('(\d+)')` takes the first maximal run of decimal
digits of the string form, and `pd.to_numeric` turns it into a number; a
string with no digit yields `NaN` (`none`). -/
def extractAge : List Char → Option Nat
  | [] => none
  | c :: rest =>
    if c.isDigit then some (digitsToNat (c :: rest.takeWhile Char.isDigit))
    else extractAge rest

/-- Test fixture: a 30-year-old student with no gender preference on
campus 1 (the spec's Scenario 1 student). -/
def studentA : Student :=
  { idx := 0, age := some 30, genderPref := none, campus := "1",
    phone := "p", email := "e", personalEmail := "q", disability := "No",
    activity1 := "Walking" }

/-- Test fixture: a 40-year-old male mentor on campus 1. -/
def mentorA : Mentor :=
  { idx := 0, name := "A", age := some 40, gender := "Male", campus := "1",
    title := "Mr." }

/-- Test fixture: a 20-year-old student who prefers a female mentor (the
spec's Scenario 2 student). -/
def studentB : Student :=
  { idx := 1, age := some 20, genderPref := some "Female", campus := "1",
    phone := "p", email := "e", personalEmail := "q", disability := "No",
    activity1 := "Walking" }

/-- Test fixture: the older of two equally scored mentors. -/
def mentorOld : Mentor :=
  { idx := 1, name := "Old", age := some 60, gender := "Male", campus := "2",
    title := "Mr." }

/-- Test fixture: the younger of two equally scored mentors. -/
def mentorYoung : Mentor :=
  { idx := 2, name := "Young", age := some 45, gender := "Male", campus := "2",
    title := "Mr." }

theorem sortByAgeDesc_perm {α : Type} (age : α → Option Nat) (l : List α) :
    List.Perm (sortByAgeDesc age l) l :=
  List.perm_insertionSort (ageRel age) l

theorem foldl_preserve {α β : Type} {P : β → Prop} {f : β → α → β} :
    ∀ (l : List α) (init : β), P init → (∀ st a, a ∈ l → P st → P (f st a)) →
      P (l.foldl f init) := by
  intro l
  induction l with
  | nil => intro init h0 _; exact h0
  | cons a t ih =>
    intro init h0 hstep
    exact ih (f init a) (hstep init a (List.mem_cons_self a t) h0)
      (fun st b hb hst => hstep st b (List.mem_cons_of_mem a hb) hst)

theorem campusScore_cases (s : Student) (m : Mentor) :
    campusScore s m = 0 ∨ campusScore s m = 1 := by
  unfold campusScore
  split
  · exact Or.inr rfl
  · exact Or.inl rfl

theorem campusScore_nonneg (s : Student) (m : Mentor) : 0 ≤ campusScore s m := by
  rcases campusScore_cases s m with h | h <;> omega

theorem campusScore_le_one (s : Student) (m : Mentor) : campusScore s m ≤ 1 := by
  rcases campusScore_cases s m with h | h <;> omega

/-- Soundness of the inner scan: a returned best mentor came from the scanned
list, passed both hard filters against the ledger state of the scan, and the
returned `highest_score` is exactly its campus score. -/
theorem scanMentors_sound (cnt : Nat → Nat) (cap : Nat) (s : Student)
    (mentors : List Mentor) (m : Mentor)
    (h : (scanMentors cnt cap s mentors).bestMentor = some m) :
    m ∈ mentors ∧ eligible cnt cap s m = true ∧
      (scanMentors cnt cap s mentors).highestScore = campusScore s m := by
  have main : ∀ m0, (scanMentors cnt cap s mentors).bestMentor = some m0 →
      m0 ∈ mentors ∧ eligible cnt cap s m0 = true ∧
        (scanMentors cnt cap s mentors).highestScore = campusScore s m0 := by
    unfold scanMentors
    have := foldl_preserve (P := fun st : ScanState => ∀ m0,
        st.bestMentor = some m0 → m0 ∈ mentors ∧ eligible cnt cap s m0 = true ∧
          st.highestScore = campusScore s m0)
      (f := scanStep cnt cap s) mentors ⟨none, -1⟩ (by intro m0 h0; cases h0)
    apply this
    intro st a ha hst m0 hm0
    unfold scanStep at hm0 ⊢
    by_cases hg : genderMiss s a
    · rw [if_pos hg] at hm0 ⊢
      exact hst m0 hm0
    · rw [if_neg hg] at hm0 ⊢
      by_cases hc : cap ≤ cnt a.idx
      · rw [if_pos hc] at hm0 ⊢
        exact hst m0 hm0
      · rw [if_neg hc] at hm0 ⊢
        by_cases hs : st.highestScore < campusScore s a
        · rw [if_pos hs] at hm0 ⊢
          cases hm0
          refine ⟨ha, ?_, rfl⟩
          unfold eligible
          simp [hg, Nat.lt_of_not_le hc]
        · rw [if_neg hs] at hm0 ⊢
          exact hst m0 hm0
  exact main m h

theorem scanStep_eq (cnt : Nat → Nat) (cap : Nat) (s : Student)
    (st : ScanState) (m : Mentor) :
    scanStep cnt cap s st m =
      if eligible cnt cap s m then pureStep s st m else st := by
  unfold scanStep eligible pureStep
  by_cases hg : genderMiss s m
  · simp [hg]
  · by_cases hc : cap ≤ cnt m.idx
    · simp [hg, hc, Nat.not_lt.mpr hc]
    · simp [hg, hc, Nat.lt_of_not_le hc]

theorem foldl_scanStep_filter (cnt : Nat → Nat) (cap : Nat) (s : Student) :
    ∀ (l : List Mentor) (st : ScanState),
      l.foldl (scanStep cnt cap s) st =
        (l.filter (eligible cnt cap s)).foldl (pureStep s) st := by
  intro l
  induction l with
  | nil => intro st; rfl
  | cons a t ih =>
    intro st
    rw [List.foldl_cons, List.filter_cons, scanStep_eq]
    by_cases he : eligible cnt cap s a
    · rw [if_pos he, if_pos he, List.foldl_cons, ih]
    · rw [if_neg he, if_neg (by simpa using he), ih]

theorem foldl_pureStep_top (s : Student) :
    ∀ (l : List Mentor) (bm : Option Mentor),
      l.foldl (pureStep s) ⟨bm, 1⟩ = ⟨bm, 1⟩ := by
  intro l
  induction l with
  | nil => intro bm; rfl
  | cons a t ih =>
    intro bm
    have hle := campusScore_le_one s a
    have hstep : pureStep s ⟨bm, 1⟩ a = ⟨bm, 1⟩ := by
      unfold pureStep
      rw [if_neg]
      show ¬((1 : Int) < campusScore s a)
      omega
    rw [List.foldl_cons, hstep, ih]

theorem foldl_pureStep_zero (s : Student) :
    ∀ (l : List Mentor) (b : Mentor),
      l.foldl (pureStep s) ⟨some b, 0⟩ =
        match l.find? (fun m => campusScore s m == 1) with
        | some m => ⟨some m, 1⟩
        | none => ⟨some b, 0⟩ := by
  intro l
  induction l with
  | nil => intro b; rfl
  | cons a t ih =>
    intro b
    rw [List.foldl_cons]
    rcases campusScore_cases s a with h0 | h1
    · have hstep : pureStep s ⟨some b, 0⟩ a = ⟨some b, 0⟩ := by
        unfold pureStep
        rw [if_neg]
        show ¬((0 : Int) < campusScore s a)
        omega
      have hfind : (a :: t).find? (fun m => campusScore s m == 1) =
          t.find? (fun m => campusScore s m == 1) := by
        apply List.find?_cons_of_neg
        simp [h0]
      rw [hstep, hfind, ih]
    · have hstep : pureStep s ⟨some b, 0⟩ a = ⟨some a, campusScore s a⟩ := by
        unfold pureStep
        rw [if_pos]
        show (0 : Int) < campusScore s a
        omega
      have hfind : (a :: t).find? (fun m => campusScore s m == 1) = some a := by
        apply List.find?_cons_of_pos
        simp [h1]
      rw [hstep, h1, foldl_pureStep_top, hfind]

/-- Closed form of the inner scan: nothing is selected when no mentor is
eligible; otherwise the first eligible mentor with campus score `1` is
selected with `highest_score = 1`, and failing that the first eligible
mentor is selected with `highest_score = 0`. -/
theorem scanMentors_eq (cnt : Nat → Nat) (cap : Nat) (s : Student)
    (mentors : List Mentor) :
    scanMentors cnt cap s mentors =
      match mentors.filter (eligible cnt cap s) with
      | [] => ⟨none, -1⟩
      | a :: es =>
        match (a :: es).find? (fun m => campusScore s m == 1) with
        | some m => ⟨some m, 1⟩
        | none => ⟨some a, 0⟩ := by
  unfold scanMentors
  rw [foldl_scanStep_filter]
  cases hE : mentors.filter (eligible cnt cap s) with
  | nil => rfl
  | cons a es =>
    show (a :: es).foldl (pureStep s) ⟨none, -1⟩ =
      match (a :: es).find? (fun m => campusScore s m == 1) with
      | some m => ⟨some m, 1⟩
      | none => ⟨some a, 0⟩
    rw [List.foldl_cons]
    have hstep : pureStep s ⟨none, -1⟩ a = ⟨some a, campusScore s a⟩ := by
      have := campusScore_nonneg s a
      unfold pureStep
      rw [if_pos]
      show (-1 : Int) < campusScore s a
      omega
    rcases campusScore_cases s a with h0 | h1
    · have hfind : (a :: es).find? (fun m => campusScore s m == 1) =
          es.find? (fun m => campusScore s m == 1) := by
        apply List.find?_cons_of_neg
        simp [h0]
      rw [hstep, h0, foldl_pureStep_zero, hfind]
    · have hfind : (a :: es).find? (fun m => campusScore s m == 1) = some a := by
        apply List.find?_cons_of_pos
        simp [h1]
      rw [hstep, h1, foldl_pureStep_top, hfind]

theorem foldl_max_init_mono (s : Student) :
    ∀ (l : List Mentor) (a b : Int), a ≤ b →
      l.foldl (fun acc m => max acc (campusScore s m)) a ≤
        l.foldl (fun acc m => max acc (campusScore s m)) b := by
  intro l
  induction l with
  | nil => intro a b h; exact h
  | cons x t ih =>
    intro a b h
    rw [List.foldl_cons, List.foldl_cons]
    exact ih _ _ (by omega)

theorem foldl_max_init_le (s : Student) :
    ∀ (l : List Mentor) (a : Int),
      a ≤ l.foldl (fun acc m => max acc (campusScore s m)) a := by
  intro l
  induction l with
  | nil => intro a; exact le_refl a
  | cons x t ih =>
    intro a
    rw [List.foldl_cons]
    have h1 : a ≤ max a (campusScore s x) := le_max_left _ _
    exact le_trans h1 (ih _)

theorem foldl_max_le_one (s : Student) :
    ∀ (l : List Mentor) (a : Int), a ≤ 1 →
      l.foldl (fun acc m => max acc (campusScore s m)) a ≤ 1 := by
  intro l
  induction l with
  | nil => intro a h; exact h
  | cons x t ih =>
    intro a h
    rw [List.foldl_cons]
    have := campusScore_le_one s x
    exact ih _ (by omega)

theorem foldl_max_mem_le (s : Student) :
    ∀ (l : List Mentor) (a : Int) (m : Mentor), m ∈ l →
      campusScore s m ≤ l.foldl (fun acc m => max acc (campusScore s m)) a := by
  intro l
  induction l with
  | nil => intro a m hm; cases hm
  | cons x t ih =>
    intro a m hm
    rw [List.foldl_cons]
    rcases List.mem_cons.mp hm with h | h
    · subst h
      exact le_trans (le_max_right _ _) (foldl_max_init_le s t _)
    · exact ih _ m h

theorem maxEligScore_of_mem_one (s : Student) (l : List Mentor) (m : Mentor)
    (hm : m ∈ l) (h1 : campusScore s m = 1) : maxEligScore s l = 1 := by
  have hub := foldl_max_le_one s l (-1) (by omega)
  have hlb := foldl_max_mem_le s l (-1) m hm
  unfold maxEligScore
  omega

theorem foldl_max_all_zero (s : Student) :
    ∀ (l : List Mentor), (∀ m ∈ l, campusScore s m = 0) →
      l.foldl (fun acc m => max acc (campusScore s m)) 0 = 0 := by
  intro l
  induction l with
  | nil => intro _; rfl
  | cons x t ih =>
    intro h
    rw [List.foldl_cons]
    have hx := h x (List.mem_cons_self x t)
    rw [hx]
    simpa using ih (fun m hm => h m (List.mem_cons_of_mem x hm))

theorem maxEligScore_of_all_zero (s : Student) (a : Mentor) (es : List Mentor)
    (h : ∀ m ∈ a :: es, campusScore s m = 0) : maxEligScore s (a :: es) = 0 := by
  unfold maxEligScore
  rw [List.foldl_cons, h a (List.mem_cons_self a es)]
  have : max (-1 : Int) 0 = 0 := by omega
  rw [this]
  exact foldl_max_all_zero s es (fun m hm => h m (List.mem_cons_of_mem a hm))

/-- C4: among the mentors passing both hard filters, the engine selects the
first one (in mentor priority order) achieving the maximum score, its
`highest_score` is that maximum, and an eligible mentor whose score does not
strictly exceed the running best never displaces it. -/
theorem claim_C4 (cnt : Nat → Nat) (cap : Nat) (s : Student)
    (mentors : List Mentor)
    (h : mentors.filter (eligible cnt cap s) ≠ []) :
    ((scanMentors cnt cap s mentors).bestMentor =
        (mentors.filter (eligible cnt cap s)).find?
          (fun m => campusScore s m ==
            maxEligScore s (mentors.filter (eligible cnt cap s))))
    ∧ (scanMentors cnt cap s mentors).highestScore =
        maxEligScore s (mentors.filter (eligible cnt cap s))
    ∧ (∀ st m, campusScore s m ≤ st.highestScore →
        scanStep cnt cap s st m = st) := by
  have hthird : ∀ (st : ScanState) (m : Mentor),
      campusScore s m ≤ st.highestScore → scanStep cnt cap s st m = st := by
    intro st m hle
    rw [scanStep_eq]
    by_cases he : eligible cnt cap s m
    · rw [if_pos he]
      unfold pureStep
      rw [if_neg]
      omega
    · rw [if_neg he]
  have hscan := scanMentors_eq cnt cap s mentors
  cases hE : mentors.filter (eligible cnt cap s) with
  | nil => exact absurd hE h
  | cons a es =>
    rw [hE] at hscan
    have hscan2 : scanMentors cnt cap s mentors =
        match (a :: es).find? (fun m => campusScore s m == 1) with
        | some m => ⟨some m, 1⟩
        | none => ⟨some a, 0⟩ := hscan
    cases hf : (a :: es).find? (fun m => campusScore s m == 1) with
    | some m1 =>
      rw [hf] at hscan2
      have hscan3 : scanMentors cnt cap s mentors = ⟨some m1, 1⟩ := hscan2
      have hp := List.find?_some hf
      have hm1 : campusScore s m1 = 1 := by simpa using hp
      have hmem : m1 ∈ a :: es := List.mem_of_find?_eq_some hf
      have hmax : maxEligScore s (a :: es) = 1 :=
        maxEligScore_of_mem_one s (a :: es) m1 hmem hm1
      rw [hmax]
      refine ⟨?_, ?_, hthird⟩
      · rw [hscan3, hf]
      · rw [hscan3]
    | none =>
      rw [hf] at hscan2
      have hscan3 : scanMentors cnt cap s mentors = ⟨some a, 0⟩ := hscan2
      have hall : ∀ m ∈ a :: es, campusScore s m = 0 := by
        intro m hm
        have := List.find?_eq_none.mp hf m hm
        rcases campusScore_cases s m with h0 | h1
        · exact h0
        · exact absurd (by simp [h1]) this
      have hmax : maxEligScore s (a :: es) = 0 :=
        maxEligScore_of_all_zero s a es hall
      rw [hmax]
      have hfind0 : (a :: es).find? (fun m => campusScore s m == 0) = some a := by
        apply List.find?_cons_of_pos
        simp [hall a (List.mem_cons_self a es)]
      refine ⟨?_, ?_, hthird⟩
      · rw [hscan3, hfind0]
      · rw [hscan3]

theorem studentStep_none (ms : List Mentor) (cap : Nat) (st : EngineState)
    (s : Student) (h : (scanMentors st.menteeCount cap s ms).bestMentor = none) :
    studentStep ms cap st s = st := by
  unfold studentStep
  rw [h]

theorem studentStep_some (ms : List Mentor) (cap : Nat) (st : EngineState)
    (s : Student) (m : Mentor)
    (h : (scanMentors st.menteeCount cap s ms).bestMentor = some m) :
    studentStep ms cap st s =
      { menteeCount := fun i => if i = m.idx then st.menteeCount i + 1 else st.menteeCount i
        matchRows := st.matchRows ++
          [mkMatch s m (scanMentors st.menteeCount cap s ms).highestScore] } := by
  unfold studentStep
  rw [h]

/-- C7: the matching loop is total: a student for whom every mentor fails a
hard filter (gender or capacity, including all-mentors-at-capacity) produces
no match row, leaves the ledger untouched, and the loop simply proceeds to
the remaining students.  (In this embedding every engine function is total,
so no error path exists at all.) -/
theorem claim_C7 (mentorsSorted : List Mentor) (cap : Nat) (st : EngineState)
    (s : Student) (rest : List Student)
    (h : ∀ m ∈ mentorsSorted, eligible st.menteeCount cap s m = false) :
    studentStep mentorsSorted cap st s = st ∧
      (s :: rest).foldl (studentStep mentorsSorted cap) st =
        rest.foldl (studentStep mentorsSorted cap) st := by
  have hfil : mentorsSorted.filter (eligible st.menteeCount cap s) = [] := by
    rw [List.filter_eq_nil_iff]
    intro m hm
    simp [h m hm]
  have hscan := scanMentors_eq st.menteeCount cap s mentorsSorted
  rw [hfil] at hscan
  have hnone : (scanMentors st.menteeCount cap s mentorsSorted).bestMentor = none := by
    rw [hscan]
  have h1 := studentStep_none mentorsSorted cap st s hnone
  exact ⟨h1, by rw [List.foldl_cons, h1]⟩

/-- Provenance of every output row: it was built by `mkMatch` from a student
of the input, a mentor of the input that passed the gender filter against
that student, and the mentor's campus score. -/
theorem run_provenance (students : List Student) (mentors : List Mentor)
    (cap : Nat) :
    ∀ rec ∈ match_by_age_and_rules students mentors cap,
      ∃ s, s ∈ students ∧ ∃ m, m ∈ mentors ∧ genderMiss s m = false ∧
        rec = mkMatch s m (campusScore s m) := by
  unfold match_by_age_and_rules runEngine
  apply foldl_preserve
    (P := fun st : EngineState => ∀ rec ∈ st.matchRows,
      ∃ s, s ∈ students ∧ ∃ m, m ∈ mentors ∧ genderMiss s m = false ∧
        rec = mkMatch s m (campusScore s m))
  · intro rec hrec
    simp [initState] at hrec
  · intro st s hs hst rec hrec
    cases hbm : (scanMentors st.menteeCount cap s
        (sortByAgeDesc Mentor.age mentors)).bestMentor with
    | none =>
      rw [studentStep_none _ _ _ _ hbm] at hrec
      exact hst rec hrec
    | some m =>
      rw [studentStep_some _ _ _ _ _ hbm] at hrec
      rcases List.mem_append.mp hrec with hold | hnew
      · exact hst rec hold
      · have heq : rec = mkMatch s m ((scanMentors st.menteeCount cap s
            (sortByAgeDesc Mentor.age mentors)).highestScore) := by
          simpa using hnew
        obtain ⟨hmem, helig, hscore⟩ := scanMentors_sound _ _ _ _ _ hbm
        have hsmem : s ∈ students :=
          (sortByAgeDesc_perm Student.age students).mem_iff.mp hs
        have hmmem : m ∈ mentors :=
          (sortByAgeDesc_perm Mentor.age mentors).mem_iff.mp hmem
        have hgm : genderMiss s m = false := by
          cases hg : genderMiss s m
          · rfl
          · exfalso
            unfold eligible at helig
            rw [hg] at helig
            simp at helig
        refine ⟨s, hsmem, m, hmmem, hgm, ?_⟩
        rw [heq, hscore]

theorem genderMiss_false_iff (s : Student) (m : Mentor) :
    genderMiss s m = false ↔
      ((s.genderPref = some "Male" → m.gender = "Male") ∧
       (s.genderPref = some "Female" → m.gender = "Female")) := by
  unfold genderMiss isMalePreferenceMiss isFemalePreferenceMiss
  by_cases h1 : s.genderPref = some "Male"
  · have h2 : s.genderPref ≠ some "Female" := by
      rw [h1]
      intro hc
      exact absurd hc (by decide)
    simp [h1, h2]
  · by_cases h2 : s.genderPref = some "Female"
    · simp [h1, h2]
    · simp [h1, h2]

/-- C3: every produced match respects the student's gender preference: a
`Male` (resp. `Female`) preference forces a mentor of exactly that gender, a
mentor of gender `Unknown` never satisfies a `Male` or `Female` preference,
and a student whose preference is unset or any other value passes the gender
filter against every mentor. -/
theorem claim_C3 (students : List Student) (mentors : List Mentor) (cap : Nat) :
    (∀ rec ∈ match_by_age_and_rules students mentors cap,
      ∃ s, s ∈ students ∧ ∃ m, m ∈ mentors ∧
        rec.studentIndex = s.idx ∧ rec.mentorIndex = m.idx ∧
        (s.genderPref = some "Male" → m.gender = "Male") ∧
        (s.genderPref = some "Female" → m.gender = "Female") ∧
        (m.gender = "Unknown" →
          s.genderPref ≠ some "Male" ∧ s.genderPref ≠ some "Female"))
    ∧ (∀ (s : Student) (m : Mentor), s.genderPref ≠ some "Male" →
        s.genderPref ≠ some "Female" → genderMiss s m = false) := by
  constructor
  · intro rec hrec
    obtain ⟨s, hsmem, m, hmmem, hgm, heq⟩ :=
      run_provenance students mentors cap rec hrec
    obtain ⟨hMale, hFemale⟩ := (genderMiss_false_iff s m).mp hgm
    refine ⟨s, hsmem, m, hmmem, by rw [heq]; rfl, by rw [heq]; rfl,
      hMale, hFemale, ?_⟩
    intro hunk
    constructor
    · intro hpref
      have := hMale hpref
      rw [hunk] at this
      exact absurd this (by decide)
    · intro hpref
      have := hFemale hpref
      rw [hunk] at this
      exact absurd this (by decide)
  · intro s m h1 h2
    unfold genderMiss isMalePreferenceMiss isFemalePreferenceMiss
    simp [h1, h2]

/-- C5: the tie-break score of a (student, mentor) pair is `1` exactly when
the campuses coincide on a non-`Unknown` campus and `0` otherwise, and every
produced match row records `Same_Campus_Match = "Yes"` exactly when the
selected mentor's score was positive, `"No"` otherwise. -/
theorem claim_C5 (students : List Student) (mentors : List Mentor) (cap : Nat) :
    (∀ (s : Student) (m : Mentor),
       (campusScore s m = 1 ↔ (s.campus = m.campus ∧ s.campus ≠ "Unknown"))
       ∧ (campusScore s m = 0 ↔ ¬(s.campus = m.campus ∧ s.campus ≠ "Unknown")))
    ∧ (∀ rec ∈ match_by_age_and_rules students mentors cap,
        ∃ s, s ∈ students ∧ ∃ m, m ∈ mentors ∧
          rec.studentIndex = s.idx ∧ rec.mentorIndex = m.idx ∧
          (rec.sameCampusMatch = "Yes" ↔ 0 < campusScore s m) ∧
          (rec.sameCampusMatch = "No" ↔ campusScore s m = 0)) := by
  have hchar : ∀ (s : Student) (m : Mentor),
      (campusScore s m = 1 ↔ (s.campus = m.campus ∧ s.campus ≠ "Unknown"))
      ∧ (campusScore s m = 0 ↔ ¬(s.campus = m.campus ∧ s.campus ≠ "Unknown")) := by
    intro s m
    unfold campusScore
    by_cases hc : (s.campus == m.campus && !(s.campus == "Unknown")) = true
    · rw [if_pos hc]
      rw [Bool.and_eq_true] at hc
      have he1 : s.campus = m.campus := by simpa using hc.1
      have hu1 : s.campus ≠ "Unknown" := by simpa using hc.2
      constructor
      · exact ⟨fun _ => ⟨he1, hu1⟩, fun _ => rfl⟩
      · constructor
        · intro h0
          exact absurd h0 (by decide)
        · intro hn
          exact absurd ⟨he1, hu1⟩ hn
    · rw [if_neg hc]
      have hnc : ¬(s.campus = m.campus ∧ s.campus ≠ "Unknown") := by
        intro hand
        obtain ⟨he1, hu1⟩ := hand
        rw [he1] at hu1
        apply hc
        simp [he1, hu1]
      constructor
      · constructor
        · intro h0
          exact absurd h0 (by decide)
        · intro h
          exact absurd h hnc
      · exact ⟨fun _ => hnc, fun _ => rfl⟩
  refine ⟨hchar, ?_⟩
  intro rec hrec
  obtain ⟨s, hsmem, m, hmmem, _, heq⟩ :=
    run_provenance students mentors cap rec hrec
  refine ⟨s, hsmem, m, hmmem, by rw [heq]; rfl, by rw [heq]; rfl, ?_, ?_⟩
  · rw [heq]
    show (if 0 < campusScore s m then "Yes" else "No") = "Yes" ↔ 0 < campusScore s m
    by_cases h : 0 < campusScore s m
    · rw [if_pos h]
      exact ⟨fun _ => h, fun _ => rfl⟩
    · rw [if_neg h]
      constructor
      · intro hc
        exact absurd hc (by decide)
      · intro hc
        exact absurd hc h
  · rw [heq]
    show (if 0 < campusScore s m then "Yes" else "No") = "No" ↔ campusScore s m = 0
    have := campusScore_cases s m
    by_cases h : 0 < campusScore s m
    · rw [if_pos h]
      constructor
      · intro hc
        exact absurd hc (by decide)
      · intro hc
        omega
    · rw [if_neg h]
      constructor
      · intro _
        omega
      · intro _
        rfl

/-- The capacity ledger invariant: at every point the ledger entry of mentor
index `i` equals the number of match rows referencing `i`, and never exceeds
the capacity. -/
theorem ledger_invariant (students : List Student) (mentors : List Mentor)
    (cap : Nat) :
    ∀ i, (runEngine students mentors cap).menteeCount i =
        ((runEngine students mentors cap).matchRows.filter
          (fun r => r.mentorIndex == i)).length
      ∧ (runEngine students mentors cap).menteeCount i ≤ cap := by
  unfold runEngine
  apply foldl_preserve
    (P := fun st : EngineState => ∀ i,
      st.menteeCount i =
          (st.matchRows.filter (fun r => r.mentorIndex == i)).length
        ∧ st.menteeCount i ≤ cap)
  · intro i
    simp [initState]
  · intro st s _ hst i
    cases hbm : (scanMentors st.menteeCount cap s
        (sortByAgeDesc Mentor.age mentors)).bestMentor with
    | none =>
      rw [studentStep_none _ _ _ _ hbm]
      exact hst i
    | some m =>
      obtain ⟨_, helig, _⟩ := scanMentors_sound _ _ _ _ _ hbm
      have hcapm : st.menteeCount m.idx < cap := by
        unfold eligible at helig
        rw [Bool.and_eq_true] at helig
        exact of_decide_eq_true helig.2
      rw [studentStep_some _ _ _ _ _ hbm]
      dsimp only
      rw [List.filter_append, List.length_append]
      by_cases hi : i = m.idx
      · subst hi
        rw [if_pos rfl]
        have hsingle : (List.filter (fun r => r.mentorIndex == m.idx)
            [mkMatch s m ((scanMentors st.menteeCount cap s
              (sortByAgeDesc Mentor.age mentors)).highestScore)]).length = 1 := by
          simp [mkMatch]
        rw [hsingle]
        have h1 := (hst m.idx).1
        omega
      · rw [if_neg hi]
        have hi2 : ¬(m.idx = i) := fun h => hi h.symm
        have hsingle : (List.filter (fun r => r.mentorIndex == i)
            [mkMatch s m ((scanMentors st.menteeCount cap s
              (sortByAgeDesc Mentor.age mentors)).highestScore)]).length = 0 := by
          simp [mkMatch, hi2]
        rw [hsingle]
        have h1 := (hst i).1
        have h2 := (hst i).2
        omega

/-- C2: no mentor ever receives more match rows than the capacity; the
ledger starts at zero for every mentor, ends equal to the number of match
rows referencing each mentor (one increment per created match), and a step
of the loop never decreases any ledger entry. -/
theorem claim_C2 (students : List Student) (mentors : List Mentor) (cap : Nat) :
    (∀ i, ((match_by_age_and_rules students mentors cap).filter
        (fun r => r.mentorIndex == i)).length ≤ cap)
    ∧ (∀ i, initState.menteeCount i = 0)
    ∧ (∀ i, (runEngine students mentors cap).menteeCount i =
        ((match_by_age_and_rules students mentors cap).filter
          (fun r => r.mentorIndex == i)).length)
    ∧ (∀ (ms : List Mentor) (st : EngineState) (s : Student) (i : Nat),
        st.menteeCount i ≤ (studentStep ms cap st s).menteeCount i) := by
  refine ⟨?_, fun i => rfl, ?_, ?_⟩
  · intro i
    have h := ledger_invariant students mentors cap i
    unfold match_by_age_and_rules
    omega
  · intro i
    exact (ledger_invariant students mentors cap i).1
  · intro ms st s i
    cases hbm : (scanMentors st.menteeCount cap s ms).bestMentor with
    | none =>
      rw [studentStep_none _ _ _ _ hbm]
    | some m =>
      rw [studentStep_some _ _ _ _ _ hbm]
      dsimp only
      by_cases hi : i = m.idx
      · subst hi
        rw [if_pos rfl]
        omega
      · rw [if_neg hi]

/-- C8: with `max_mentees_per_mentor = 0` the capacity hard filter rejects
every mentor, so the engine produces no match rows at all. -/
theorem claim_C8 (students : List Student) (mentors : List Mentor) :
    match_by_age_and_rules students mentors 0 = [] := by
  unfold match_by_age_and_rules runEngine
  have hstep : ∀ (st : EngineState) (s : Student),
      studentStep (sortByAgeDesc Mentor.age mentors) 0 st s = st := by
    intro st s
    apply studentStep_none
    rw [scanMentors_eq]
    have hfil : (sortByAgeDesc Mentor.age mentors).filter
        (eligible st.menteeCount 0 s) = [] := by
      rw [List.filter_eq_nil_iff]
      intro m _
      unfold eligible
      simp
    rw [hfil]
  have hfold : ∀ (l : List Student) (st : EngineState),
      l.foldl (studentStep (sortByAgeDesc Mentor.age mentors) 0) st = st := by
    intro l
    induction l with
    | nil => intro st; rfl
    | cons s t ih =>
      intro st
      rw [List.foldl_cons, hstep, ih]
  rw [hfold]
  rfl

theorem run_studentIndex_nodup (ms : List Mentor) (cap : Nat) :
    ∀ (l : List Student) (st : EngineState),
      (l.map Student.idx).Nodup →
      (st.matchRows.map MatchRec.studentIndex).Nodup →
      (∀ s ∈ l, s.idx ∉ st.matchRows.map MatchRec.studentIndex) →
      ((l.foldl (studentStep ms cap) st).matchRows.map MatchRec.studentIndex).Nodup := by
  intro l
  induction l with
  | nil => intro st _ h2 _; exact h2
  | cons s t ih =>
    intro st hnd h2 h3
    rw [List.map_cons, List.nodup_cons] at hnd
    rw [List.foldl_cons]
    cases hbm : (scanMentors st.menteeCount cap s ms).bestMentor with
    | none =>
      rw [studentStep_none _ _ _ _ hbm]
      exact ih st hnd.2 h2 (fun x hx => h3 x (List.mem_cons_of_mem s hx))
    | some m =>
      rw [studentStep_some _ _ _ _ _ hbm]
      have hmap : ((st.matchRows ++
          [mkMatch s m ((scanMentors st.menteeCount cap s ms).highestScore)]).map
            MatchRec.studentIndex) =
          st.matchRows.map MatchRec.studentIndex ++ [s.idx] := by
        rw [List.map_append]
        rfl
      apply ih
      · exact hnd.2
      · dsimp only
        rw [hmap]
        apply List.Nodup.append h2 (List.nodup_singleton s.idx)
        intro x hx hx2
        have hxs : x = s.idx := by simpa using hx2
        subst hxs
        exact h3 s (List.mem_cons_self s t) hx
      · intro x hx
        dsimp only
        rw [hmap]
        intro hmem
        rcases List.mem_append.mp hmem with hold | hnew
        · exact h3 x (List.mem_cons_of_mem s hx) hold
        · have hxs : x.idx = s.idx := by simpa using hnew
          apply hnd.1
          rw [← hxs]
          exact List.mem_map_of_mem Student.idx hx

/-- Every matched student index is the index of an input student. -/
theorem matched_subset (students : List Student) (mentors : List Mentor)
    (cap : Nat) :
    ∀ i ∈ (match_by_age_and_rules students mentors cap).map
        MatchRec.studentIndex, i ∈ students.map Student.idx := by
  intro i hi
  rcases List.mem_map.mp hi with ⟨rec, hrec, hrecidx⟩
  obtain ⟨s, hsmem, m, _, _, heq⟩ :=
    run_provenance students mentors cap rec hrec
  have : rec.studentIndex = s.idx := by rw [heq]; rfl
  rw [← hrecidx, this]
  exact List.mem_map_of_mem Student.idx hsmem

/-- C6: no student index appears in two match rows; the matched indices and
the indices of the unmatched remainder partition the full input index set
with no overlap; the remainder keeps the original student input order (it
is a sublist of the original prepared sequence). -/
theorem claim_C6 (students : List Student) (mentors : List Mentor) (cap : Nat)
    (hnd : (students.map Student.idx).Nodup) :
    ((match_by_age_and_rules students mentors cap).map
        MatchRec.studentIndex).Nodup
    ∧ (∀ i, (i ∈ (match_by_age_and_rules students mentors cap).map
            MatchRec.studentIndex
          ∨ i ∈ (unmatched_students students
              (match_by_age_and_rules students mentors cap)).map Student.idx)
        ↔ i ∈ students.map Student.idx)
    ∧ (∀ i, ¬(i ∈ (match_by_age_and_rules students mentors cap).map
            MatchRec.studentIndex
          ∧ i ∈ (unmatched_students students
              (match_by_age_and_rules students mentors cap)).map Student.idx))
    ∧ List.Sublist (unmatched_students students
        (match_by_age_and_rules students mentors cap)) students := by
  have hsortnd : ((sortByAgeDesc Student.age students).map Student.idx).Nodup := by
    have hperm := (sortByAgeDesc_perm Student.age students).map Student.idx
    exact hperm.nodup_iff.mpr hnd
  have hnodup : ((match_by_age_and_rules students mentors cap).map
      MatchRec.studentIndex).Nodup := by
    unfold match_by_age_and_rules runEngine
    apply run_studentIndex_nodup _ _ _ _ hsortnd
    · exact List.nodup_nil
    · intro s _ hmem
      simp [initState] at hmem
  have hunm_mem : ∀ x, x ∈ unmatched_students students
      (match_by_age_and_rules students mentors cap) ↔
        x ∈ students ∧ x.idx ∉ (match_by_age_and_rules students mentors cap).map
          MatchRec.studentIndex := by
    intro x
    unfold unmatched_students
    rw [List.mem_filter]
    have hpred : (!((match_by_age_and_rules students mentors cap).map
          MatchRec.studentIndex).contains x.idx) = true ↔
        x.idx ∉ (match_by_age_and_rules students mentors cap).map
          MatchRec.studentIndex := by
      rw [Bool.not_eq_true']
      rw [← Bool.not_eq_true]
      constructor
      · intro hn hmem
        exact hn (List.elem_iff.mpr hmem)
      · intro hn hc
        exact hn (List.elem_iff.mp hc)
    constructor
    · intro ⟨hx, hp⟩
      exact ⟨hx, hpred.mp hp⟩
    · intro ⟨hx, hp⟩
      exact ⟨hx, hpred.mpr hp⟩
  refine ⟨hnodup, ?_, ?_, List.filter_sublist students⟩
  · intro i
    constructor
    · intro h
      rcases h with h | h
      · exact matched_subset students mentors cap i h
      · rcases List.mem_map.mp h with ⟨x, hx, hxi⟩
        rw [← hxi]
        exact List.mem_map_of_mem Student.idx ((hunm_mem x).mp hx).1
    · intro h
      rcases List.mem_map.mp h with ⟨x, hx, hxi⟩
      by_cases hm : i ∈ (match_by_age_and_rules students mentors cap).map
          MatchRec.studentIndex
      · exact Or.inl hm
      · refine Or.inr ?_
        rw [← hxi]
        apply List.mem_map_of_mem Student.idx
        apply (hunm_mem x).mpr
        refine ⟨hx, ?_⟩
        rw [hxi]
        exact hm
  · intro i
    intro ⟨hm, hu⟩
    rcases List.mem_map.mp hu with ⟨x, hx, hxi⟩
    have := ((hunm_mem x).mp hx).2
    rw [hxi] at this
    exact this hm

/-- C9: the title-to-gender mapping implements exactly the literal rule
("mr" first, then "ms", else Unknown; non-string to Unknown): the duplicated
condition is a no-op, and no broader feminine-title handling exists — in
particular "Mrs." contains "mr" and maps to Male, not Female. -/
theorem claim_C9 :
    (∀ t, map_title_to_gender t = literalGenderRule t)
    ∧ map_title_to_gender none = "Unknown"
    ∧ map_title_to_gender (some "Mrs.") = "Male"
    ∧ map_title_to_gender (some " MS ") = "Female"
    ∧ map_title_to_gender (some "Dr.") = "Unknown" := by
  refine ⟨?_, rfl, by decide, by decide, by decide⟩
  intro t
  cases t with
  | none => rfl
  | some title =>
    show (if containsSub ['m', 'r'] (stripChars (lowerChars title.data)) then "Male"
        else if containsSub ['m', 's'] (stripChars (lowerChars title.data))
            || containsSub ['m', 's'] (stripChars (lowerChars title.data)) then "Female"
        else "Unknown")
      = (if containsSub ['m', 'r'] (stripChars (lowerChars title.data)) then "Male"
        else if containsSub ['m', 's'] (stripChars (lowerChars title.data)) then "Female"
        else "Unknown")
    rw [Bool.or_self]

theorem extractAge_cons_nondigit (c : Char) (rest : List Char)
    (h : c.isDigit = false) : extractAge (c :: rest) = extractAge rest := by
  have hdef : extractAge (c :: rest) =
      if c.isDigit then some (digitsToNat (c :: rest.takeWhile Char.isDigit))
      else extractAge rest := rfl
  rw [hdef, h]
  simp

theorem extractAge_skip : ∀ (a : List Char), (∀ c ∈ a, c.isDigit = false) →
    ∀ l, extractAge (a ++ l) = extractAge l := by
  intro a
  induction a with
  | nil => intro _ l; rfl
  | cons c t ih =>
    intro h l
    rw [List.cons_append,
      extractAge_cons_nondigit c _ (h c (List.mem_cons_self c t))]
    exact ih (fun x hx => h x (List.mem_cons_of_mem c hx)) l

theorem takeWhile_append_of_all {p : Char → Bool} :
    ∀ (l1 l2 : List Char), (∀ c ∈ l1, p c = true) →
      (l1 ++ l2).takeWhile p = l1 ++ l2.takeWhile p := by
  intro l1
  induction l1 with
  | nil => intro l2 _; rfl
  | cons c t ih =>
    intro l2 h
    rw [List.cons_append, List.takeWhile_cons, h c (List.mem_cons_self c t)]
    simp only [if_true]
    rw [ih l2 (fun x hx => h x (List.mem_cons_of_mem c hx))]
    rfl

theorem takeWhile_nil_of_head {p : Char → Bool} (b : List Char)
    (hb : ∀ c bs, b = c :: bs → p c = false) : b.takeWhile p = [] := by
  cases b with
  | nil => rfl
  | cons c bs =>
    rw [List.takeWhile_cons, hb c bs rfl]
    simp

/-- C10: preprocessing derives the numeric age from the first maximal run of
decimal digits of the string form of the raw value (so a leading digit-free
part is skipped and the run stops at the first non-digit); a string with no
digit at all becomes the unknown marker, which the priority comparator sorts
after every known age. -/
theorem claim_C10 (a d b : List Char)
    (ha : ∀ c ∈ a, c.isDigit = false)
    (hd : d ≠ [])
    (hdall : ∀ c ∈ d, c.isDigit = true)
    (hb : ∀ c bs, b = c :: bs → c.isDigit = false) :
    extractAge (a ++ d ++ b) = some (digitsToNat d)
    ∧ (∀ s : List Char, (∀ c ∈ s, c.isDigit = false) → extractAge s = none)
    ∧ (∀ x : Nat, ageLEb (some x) none = true ∧ ageLEb none (some x) = false) := by
  refine ⟨?_, ?_, fun x => ⟨rfl, rfl⟩⟩
  · rw [List.append_assoc, extractAge_skip a ha]
    cases d with
    | nil => exact absurd rfl hd
    | cons c dt =>
      have hc : c.isDigit = true := hdall c (List.mem_cons_self c dt)
      rw [List.cons_append]
      unfold extractAge
      rw [hc]
      simp only [if_true]
      rw [takeWhile_append_of_all dt b
          (fun x hx => hdall x (List.mem_cons_of_mem c hx)),
        takeWhile_nil_of_head b hb, List.append_nil]
  · intro s hs
    have := extractAge_skip s hs []
    rw [List.append_nil] at this
    rw [this]
    rfl

theorem claim_C3_witness :
    ∃ s, s ∈ [studentA] ∧ ∃ m, m ∈ [mentorA] ∧
      (mkMatch studentA mentorA 1).studentIndex = s.idx ∧
      (mkMatch studentA mentorA 1).mentorIndex = m.idx ∧
      (s.genderPref = some "Male" → m.gender = "Male") ∧
      (s.genderPref = some "Female" → m.gender = "Female") ∧
      (m.gender = "Unknown" →
        s.genderPref ≠ some "Male" ∧ s.genderPref ≠ some "Female") :=
  (claim_C3 [studentA] [mentorA] 1).1 (mkMatch studentA mentorA 1) (by decide)

theorem claim_C4_witness :
    (scanMentors (fun _ => 0) 1 studentA [mentorOld, mentorYoung]).bestMentor =
      some mentorOld := by
  have h :=
    (claim_C4 (fun _ => 0) 1 studentA [mentorOld, mentorYoung] (by decide)).1
  rw [h]
  decide

theorem claim_C5_witness :
    ∃ s, s ∈ [studentA] ∧ ∃ m, m ∈ [mentorA] ∧
      (mkMatch studentA mentorA 1).studentIndex = s.idx ∧
      (mkMatch studentA mentorA 1).mentorIndex = m.idx ∧
      ((mkMatch studentA mentorA 1).sameCampusMatch = "Yes" ↔
        0 < campusScore s m) ∧
      ((mkMatch studentA mentorA 1).sameCampusMatch = "No" ↔
        campusScore s m = 0) :=
  (claim_C5 [studentA] [mentorA] 1).2 (mkMatch studentA mentorA 1) (by decide)

theorem claim_C6_witness :
    List.Sublist (unmatched_students [studentA, studentB]
      (match_by_age_and_rules [studentA, studentB] [mentorA] 1))
      [studentA, studentB] :=
  (claim_C6 [studentA, studentB] [mentorA] 1 (by decide)).2.2.2

theorem claim_C7_witness :
    studentStep [mentorA] 1 initState studentB = initState ∧
      ([studentB].foldl (studentStep [mentorA] 1) initState =
        ([] : List Student).foldl (studentStep [mentorA] 1) initState) :=
  claim_C7 [mentorA] 1 initState studentB [] (by decide)

theorem claim_C10_witness :
    extractAge ([] ++ ['2', '5'] ++ ['-', '3', '0']) =
      some (digitsToNat ['2', '5']) :=
  (claim_C10 [] ['2', '5'] ['-', '3', '0'] (by decide) (by decide) (by decide)
    (fun c bs h => by
      injection h with h1 h2
      rw [← h1]
      decide)).1
